import Mathlib

/-!
Verification of the web profiling handler of lemonlinger/pprof
(`internal/driver/webhandler.go`) against its specification.

The Go code is shallowly embedded:
* durations are `Int` nanoseconds (Go `time.Duration`),
* wall-clock time is `Nat` nanoseconds since the Unix epoch,
* the `map[string]*profile.Profile` cache is an association list with
  distinct keys,
* the runtime capture primitives (`pprof.StartCPUProfile`,
  `pprof.WriteHeapProfile`, `profile.Parse`) are parameterised by a
  `CaptureEnv` record holding their outcomes,
* the concurrent entry protocol of `createProfile` is additionally given a
  small-step interleaving semantics for two request threads.
-/

namespace Pprof

/-- Go `time.Second` in nanoseconds. -/
def second : Int := 1000000000

/-- `ProfileTypeCPU = "cpu"` (webhandler.go line 33). -/
def ProfileTypeCPU : String := "cpu"

/-- `ProfileTypeHeap = "heap"` (webhandler.go line 34). -/
def ProfileTypeHeap : String := "heap"

/-- `defaultProfileType = ProfileTypeCPU` (webhandler.go line 36). -/
def defaultProfileType : String := ProfileTypeCPU

/-- `defaultSamplePeriod = 5 * time.Second` (webhandler.go line 37). -/
def defaultSamplePeriod : Int := 5 * second

/-- `maxSamplePeriod = 60 * time.Second` (webhandler.go line 38). -/
def maxSamplePeriod : Int := 60 * second

/-- A decoded profile (`profile.Profile`).  The handler never inspects its
contents, so it is modelled as an opaque token. -/
structure Profile where
  tag : Nat
deriving DecidableEq, Repr

/-- Lookup in the Go map `profCache` (`p, ok := h.profCache[name]`). -/
def mapLookup (m : List (String × Profile)) (k : String) : Option Profile :=
  match m with
  | [] => none
  | (k', v) :: rest => if k' = k then some v else mapLookup rest k

/-- Insertion into the Go map (`h.profCache[profName] = p`): overwrites the
entry if the key is present, otherwise adds it. -/
def mapInsert (m : List (String × Profile)) (k : String) (v : Profile) :
    List (String × Profile) :=
  match m with
  | [] => [(k, v)]
  | (k', v') :: rest =>
    if k' = k then (k, v) :: rest else (k', v') :: mapInsert rest k v

/-- The key set of the Go map (`for k := range h.profCache`). -/
def mapKeys (m : List (String × Profile)) : List String := m.map Prod.fst

/-- Two-digit zero padding, as produced by the Go layout fields
`01`, `02`, `15`, `04`, `05`. -/
def pad2 (n : Nat) : String :=
  if n < 10 then "0" ++ toString n else toString n

/-- Four-digit year, Go layout field `2006`. -/
def pad4 (n : Nat) : String :=
  if n < 10 then "000" ++ toString n
  else if n < 100 then "00" ++ toString n
  else if n < 1000 then "0" ++ toString n
  else toString n

/-- Gregorian date from a day count since 1970-01-01 (the standard civil
calendar computation used by time libraries; valid for days ≥ 0). -/
def civilFromDays (z : Nat) : Nat × Nat × Nat :=
  let z' := z + 719468
  let era := z' / 146097
  let doe := z' % 146097
  let yoe := (doe - doe / 1460 + doe / 36524 - doe / 146097) / 365
  let y := yoe + era * 400
  let doy := doe - (365 * yoe + yoe / 4 - yoe / 100)
  let mp := (5 * doy + 2) / 153
  let d := doy - (153 * mp + 2) / 5 + 1
  let m := if mp < 10 then mp + 3 else mp - 9
  (if m ≤ 2 then y + 1 else y, m, d)

/-- `t.Format("2006-01-02T15:04:05")` (webhandler.go line 395), for `sec`
seconds since the epoch. -/
def formatTime (sec : Nat) : String :=
  let days := sec / 86400
  let rem := sec % 86400
  let ymd := civilFromDays days
  pad4 ymd.1 ++ "-" ++ pad2 ymd.2.1 ++ "-" ++ pad2 ymd.2.2 ++ "T" ++
    pad2 (rem / 3600) ++ ":" ++ pad2 (rem % 3600 / 60) ++ ":" ++ pad2 (rem % 60)

/-- `%.0f` applied to `period.Seconds()`: the number of seconds of a
nanosecond duration rounded to an integer, ties to even (IEEE rounding used
by Go's `fmt`). -/
def roundHalfEven (nanos : Int) : Int :=
  let q := nanos / second
  let r := nanos % second
  if 2 * r < second then q
  else if 2 * r > second then q + 1
  else if q % 2 = 0 then q else q + 1

/-- The `%.0fSeconds` fragment's numeric text. -/
def fmtF0 (nanos : Int) : String := toString (roundHalfEven nanos)

/-- `profileName` (webhandler.go lines 394-397):
`fmt.Sprintf("%s-%.0fSeconds-%s", t.Format(...), period.Seconds(), profType)`.
`tNs` is the wall-clock instant in nanoseconds since the epoch. -/
def profileName (profType : String) (period : Int) (tNs : Nat) : String :=
  formatTime (tNs / 1000000000) ++ "-" ++ fmtF0 period ++ "Seconds-" ++ profType

/-- The mutable state of `webHandler` relevant to the profiling lifecycle:
the profile cache, the `inProfiling` flag, the wall clock (nanoseconds) and
a count of forced garbage collections (to witness `runtime.GC()` calls). -/
structure WHState where
  profCache : List (String × Profile)
  inProfiling : Bool
  now : Nat
  gcRuns : Nat
deriving DecidableEq, Repr

/-- Outcomes of the external capture primitives for one `createProfile`
call: `pprof.StartCPUProfile`, `pprof.WriteHeapProfile`, `profile.Parse`. -/
structure CaptureEnv where
  startCPUErr : Option String
  writeHeapErr : Option String
  parsed : Except String Profile
deriving Repr

/-- `createProfile` (webhandler.go lines 431-470), sequential semantics.

Mirrors the Go control flow: return `"already in profiling"` when the flag
is set (cache and state untouched); otherwise set the flag, generate the
profile name from the *current* time, run the type-specific capture (CPU:
start, sleep for the period, stop; heap: `runtime.GC()` then snapshot;
other: `"unknown profile type"`), parse the buffer, insert into the cache on
success.  The deferred `h.inProfiling = false` clears the flag on every exit
path after the early-return check. -/
def createProfile (env : CaptureEnv) (st : WHState) (profType : String)
    (samplePeriod : Int) : Except String (String × Profile) × WHState :=
  if st.inProfiling then
    (.error "already in profiling", st)
  else
    let st1 : WHState := { st with inProfiling := true }
    let profName := profileName profType samplePeriod st1.now
    let captured : Option String × WHState :=
      if profType = ProfileTypeCPU then
        match env.startCPUErr with
        | some e => (some e, st1)
        | none => (none, { st1 with now := st1.now + samplePeriod.toNat })
      else if profType = ProfileTypeHeap then
        let st2 : WHState := { st1 with gcRuns := st1.gcRuns + 1 }
        match env.writeHeapErr with
        | some e => (some e, st2)
        | none => (none, st2)
      else (some "unknown profile type", st1)
    match captured with
    | (some e, st') => (.error e, { st' with inProfiling := false })
    | (none, st') =>
      match env.parsed with
      | .error e => (.error e, { st' with inProfiling := false })
      | .ok p =>
        (.ok (profName, p),
          { st' with
            profCache := mapInsert st'.profCache profName p,
            inProfiling := false })

/-- `getProfile` (webhandler.go lines 408-415). -/
def getProfile (st : WHState) (name : String) : Option Profile :=
  mapLookup st.profCache name

/-- Lexicographic strict comparison of character lists by code point,
which on UTF-8 strings agrees with Go's byte-wise `<` on strings. -/
def charListLt : List Char → List Char → Bool
  | [], [] => false
  | [], _ :: _ => true
  | _ :: _, [] => false
  | a :: as, b :: bs =>
    if a.toNat < b.toNat then true
    else if b.toNat < a.toNat then false
    else charListLt as bs

/-- Go's `<` on strings. -/
def strLt (a b : String) : Bool := charListLt a.data b.data

/-- The comparator of `sort.Slice(names, func(i, j) { names[i] > names[j] })`:
`strGe a b` holds when `a` may precede `b` in the descending order, i.e.
when `a < b` is false. -/
def strGe (a b : String) : Prop := strLt a b = false

instance : DecidableRel strGe :=
  fun a b => inferInstanceAs (Decidable (strLt a b = false))

/-- `profileNames` (webhandler.go lines 399-406): all cache keys sorted
descending. -/
def profileNames (st : WHState) : List String :=
  List.insertionSort strGe (mapKeys st.profCache)

/-- `latestProfile` (webhandler.go lines 417-429): first name of the
descending-sorted key list together with its profile, or `("", none)` for
an empty cache. -/
def latestProfile (st : WHState) : String × Option Profile :=
  match profileNames st with
  | [] => ("", none)
  | n :: _ =>
    match mapLookup st.profCache n with
    | some p => (n, some p)
    | none => ("", none)

/-- `tryGetProfile` (webhandler.go lines 499-512). -/
def tryGetProfile (env : CaptureEnv) (st : WHState) (profname : String) :
    Except String (String × Profile) × WHState :=
  match getProfile st profname with
  | some p => (.ok (profname, p), st)
  | none =>
    match latestProfile st with
    | (n, some p) => (.ok (n, p), st)
    | (_, none) => createProfile env st ProfileTypeCPU defaultSamplePeriod

/-- `getProfileTypeFromQuery` (webhandler.go lines 476-482), applied to the
`pt` query value (`""` when absent). -/
def getProfileTypeFromQuery (pt : String) : String :=
  if pt = "" then ProfileTypeCPU else pt

/-- The three possible shapes of the `sd` query value as seen by
`getSamplePerioidFromQuery`: absent (`""`), present but rejected by
`time.ParseDuration`, or parsed to a duration in nanoseconds. -/
inductive QueryDuration where
  | absent : QueryDuration
  | unparseable : String → QueryDuration
  | parsed : Int → QueryDuration
deriving DecidableEq, Repr

/-- `getSamplePerioidFromQuery` (webhandler.go lines 484-497). -/
def getSamplePerioidFromQuery : QueryDuration → Int
  | .absent => defaultSamplePeriod
  | .unparseable _ => defaultSamplePeriod
  | .parsed d => if d > 60 * second then maxSamplePeriod else d

/-! ### Flame tree builder (webhandler.go lines 259-331)

A `graph.Node` carries a cumulative value (`n.CumValue()`), an identity
(its pointer; modelled by a numeric id) and edge maps `n.In` / `n.Out`,
modelled here by an explicit edge list on ids.  A `treeNode` holds the
display fields and a child list of pointers, modelled as the list of the
children's graph ids (the pointer-keyed `nodeMap` is the identity map on
ids). -/

/-- A call-graph node: identity and cumulative value. -/
structure GNode where
  id : Nat
  cum : Int
deriving DecidableEq, Repr

/-- A call graph: nodes plus directed edges `(caller id, callee id)`.
`n.In` is the set of edges into `n`, `n.Out` the set of edges out of `n`. -/
structure CallGraph where
  nodes : List GNode
  edges : List (Nat × Nat)
deriving DecidableEq, Repr

/-- The edges into `v` (`n.In`). -/
def inEdges (g : CallGraph) (v : Nat) : List (Nat × Nat) :=
  g.edges.filter (fun e => e.2 = v)

/-- The targets of the edges out of `v` (`for child := range n.Out`). -/
def outNeighbors (g : CallGraph) (v : Nat) : List Nat :=
  (g.edges.filter (fun e => e.1 = v)).map Prod.snd

/-- `nodes[i], nodes[j] = nodes[j], nodes[i]` on a list. -/
def listSwap (l : List Nat) (i j : Nat) : List Nat :=
  match l[i]?, l[j]? with
  | some a, some b => (l.set i b).set j a
  | _, _ => l

/-- Accumulator of the first pass of `flamegraph`: the working node array
(ids), the count of roots compacted to its front, and the running root
value. -/
structure Pass1State where
  arr : List Nat
  nroots : Nat
  rootValue : Int
deriving DecidableEq, Repr

/-- One iteration of the first pass (webhandler.go lines 281-300): append
the node; if it has no incoming edges, swap it to position `nroots`,
increment `nroots` and add its cumulative value to `rootValue`. -/
def pass1Step (g : CallGraph) (s : Pass1State) (n : GNode) : Pass1State :=
  let arr := s.arr ++ [n.id]
  if (inEdges g n.id).length = 0 then
    { arr := listSwap arr s.nroots (arr.length - 1)
      nroots := s.nroots + 1
      rootValue := s.rootValue + n.cum }
  else
    { s with arr := arr }

/-- The first pass over `g.Nodes`. -/
def pass1 (g : CallGraph) : Pass1State :=
  g.nodes.foldl (pass1Step g) ⟨[], 0, 0⟩

/-- The flame node built for a graph node, with the child links of the
second pass (webhandler.go lines 302-307): one link per outgoing edge,
pointing at the unique flame node of the callee. -/
structure TreeNode where
  id : Nat
  cum : Int
  children : List Nat
deriving DecidableEq, Repr

/-- Build the flame node of one graph node. -/
def buildTreeNode (g : CallGraph) (n : GNode) : TreeNode :=
  { id := n.id, cum := n.cum, children := outNeighbors g n.id }

/-- All flame nodes (`nodeMap` has exactly one entry per graph node). -/
def flameNodes (g : CallGraph) : List TreeNode :=
  g.nodes.map (buildTreeNode g)

/-- The synthetic root (webhandler.go lines 309-316): cumulative value
`rootValue` and children `nodes[0:nroots]` (returned as ids). -/
def flameRoot (g : CallGraph) : Int × List Nat :=
  let s := pass1 g
  (s.rootValue, s.arr.take s.nroots)

/-- The sequence of graph ids encountered when unfolding the flame subtree
below node `v` (as the JSON serialisation of the shared `treeNode` pointer
structure does), cut off at depth `fuel`. -/
def subtreeOccs (g : CallGraph) : Nat → Nat → List Nat
  | 0, _ => []
  | fuel + 1, v => v :: (outNeighbors g v).flatMap (subtreeOccs g fuel)

/-- The sequence of graph ids in the unfolded flame tree below the
synthetic root, cut off at depth `fuel`. -/
def flameTreeOccs (g : CallGraph) (fuel : Nat) : List Nat :=
  (flameRoot g).2.flatMap (subtreeOccs g fuel)

/-- The child-link relation of the flame tree between graph nodes:
`EdgeStep g a b` iff the flame node of `a` links the flame node of `b`
as a child, which is exactly the call-graph edge relation. -/
def EdgeStep (g : CallGraph) (a b : Nat) : Prop := (a, b) ∈ g.edges

/-- The call graph has no directed cycle. -/
def Acyclic (g : CallGraph) : Prop :=
  ∀ v : Nat, ¬ Relation.TransGen (EdgeStep g) v v

/-- Well-formedness of a call graph as produced by the report engine:
node identities are distinct and edges connect existing nodes. -/
def WellFormed (g : CallGraph) : Prop :=
  (g.nodes.map GNode.id).Nodup ∧
    ∀ e ∈ g.edges, e.1 ∈ g.nodes.map GNode.id ∧ e.2 ∈ g.nodes.map GNode.id

/-! ### Interleaving semantics of the `createProfile` entry protocol
(webhandler.go lines 432-441)

Two request threads each execute the statement sequence
`mtx.Lock(); if inProfiling {mtx.Unlock(); return err}; mtx.Unlock();
inProfiling = true; <capture>; inProfiling = false`.  Each Go statement is
one atomic step. -/

/-- Program counter of one thread inside `createProfile`. -/
inductive PC where
  | start      -- before `h.mtx.Lock()`
  | check      -- holding the lock, about to test `h.inProfiling`
  | relFail    -- saw the flag set, about to unlock and return the error
  | relOk      -- saw the flag clear, about to unlock
  | setFlag    -- lock released, about to run `h.inProfiling = true`
  | capturing  -- flag set, performing the capture
  | done       -- capture finished, deferred clear executed
  | failed     -- returned the "already in profiling" error
deriving DecidableEq, Repr

/-- Joint state of two request threads, the mutex and the flag. -/
structure Sys where
  pc0 : PC
  pc1 : PC
  lockHeld : Option (Fin 2)
  inProfiling : Bool
deriving DecidableEq, Repr

/-- The program counter of thread `t`. -/
def Sys.pc (s : Sys) (t : Fin 2) : PC :=
  if t = 0 then s.pc0 else s.pc1

/-- Replace the program counter of thread `t`. -/
def Sys.setPc (s : Sys) (t : Fin 2) (p : PC) : Sys :=
  if t = 0 then { s with pc0 := p } else { s with pc1 := p }

/-- One atomic step of either thread. -/
inductive Step : Sys → Sys → Prop
  | acquire (s : Sys) (t : Fin 2) :
      s.pc t = .start → s.lockHeld = none →
      Step s { s.setPc t .check with lockHeld := some t }
  | checkBusy (s : Sys) (t : Fin 2) :
      s.pc t = .check → s.lockHeld = some t → s.inProfiling = true →
      Step s (s.setPc t .relFail)
  | checkFree (s : Sys) (t : Fin 2) :
      s.pc t = .check → s.lockHeld = some t → s.inProfiling = false →
      Step s (s.setPc t .relOk)
  | releaseFail (s : Sys) (t : Fin 2) :
      s.pc t = .relFail → s.lockHeld = some t →
      Step s { s.setPc t .failed with lockHeld := none }
  | releaseOk (s : Sys) (t : Fin 2) :
      s.pc t = .relOk → s.lockHeld = some t →
      Step s { s.setPc t .setFlag with lockHeld := none }
  | doSet (s : Sys) (t : Fin 2) :
      s.pc t = .setFlag →
      Step s { s.setPc t .capturing with inProfiling := true }
  | finish (s : Sys) (t : Fin 2) :
      s.pc t = .capturing →
      Step s { s.setPc t .done with inProfiling := false }

/-- The program counters at which a thread holds `h.mtx`: from the return
of `mtx.Lock()` up to the matching `mtx.Unlock()`. -/
def inLockRegion : PC → Bool
  | .check => true
  | .relFail => true
  | .relOk => true
  | _ => false

/-- Both threads about to call `createProfile`, lock free, flag clear. -/
def initSys : Sys := ⟨.start, .start, none, false⟩

/-- Reachability under the interleaving semantics. -/
def Reachable (s : Sys) : Prop := Relation.ReflTransGen Step initSys s

/-! ### Concrete instances used to exercise the model -/

/-- An idle handler state with an empty cache. -/
def st0 : WHState := ⟨[], false, 0, 0⟩

/-- An idle handler state whose cache holds names `A < B < C`. -/
def stABC : WHState := ⟨[("A", ⟨1⟩), ("B", ⟨2⟩), ("C", ⟨3⟩)], false, 0, 0⟩

/-- An idle handler state with an empty cache at wall-clock time
2023-11-14T22:13:20 UTC. -/
def stT0 : WHState := ⟨[], false, 1700000000 * 1000000000, 0⟩

/-- A capture environment in which every primitive succeeds. -/
def env1 : CaptureEnv := ⟨none, none, .ok ⟨7⟩⟩

/-- A two-node call graph with a directed cycle and no zero-in-degree
node. -/
def gCyc : CallGraph := ⟨[⟨1, 5⟩, ⟨2, 7⟩], [(1, 2), (2, 1)]⟩

/-- A three-node call graph in which node `3` has two callers. -/
def gDiamond : CallGraph := ⟨[⟨1, 5⟩, ⟨2, 7⟩, ⟨3, 1⟩], [(1, 3), (2, 3)]⟩

/-- A two-node acyclic call graph `1 → 2`. -/
def gChain : CallGraph := ⟨[⟨1, 5⟩, ⟨2, 7⟩], [(1, 2)]⟩

/-- The identities of the zero-in-degree nodes of `l`, in order. -/
def rootIds (g : CallGraph) (l : List GNode) : List Nat :=
  (l.filter (fun n => decide ((inEdges g n.id).length = 0))).map GNode.id

/-- The identities of the nodes of `l` with at least one incoming edge. -/
def nonrootIds (g : CallGraph) (l : List GNode) : List Nat :=
  (l.filter (fun n => ! decide ((inEdges g n.id).length = 0))).map GNode.id

/-- The strict ancestors of `v` in the call graph. -/
def ancestorSet (g : CallGraph) (v : Nat) : Set Nat :=
  {w | Relation.TransGen (EdgeStep g) w v}

/-! ## Theorems -/

/-- C1: a capture request arriving while the in-progress flag is set fails
with the "already in profiling" error and leaves the whole handler state —
in particular the profile cache — untouched; and on every exit path of a
capture the flag is restored, so a completed call never leaves it stuck
set. -/
theorem createProfile_busy_rejected (env : CaptureEnv) (st : WHState)
    (profType : String) (period : Int) :
    (st.inProfiling = true →
      createProfile env st profType period = (.error "already in profiling", st)) ∧
    (createProfile env st profType period).2.inProfiling = st.inProfiling := by
  constructor
  · intro h
    simp [createProfile, h]
  · by_cases hip : st.inProfiling = true
    · simp [createProfile, hip]
    · rcases env with ⟨sc, wh, pr⟩
      by_cases hc : profType = "cpu" <;>
        by_cases hh : profType = "heap" <;>
        rcases sc with _ | e1 <;> rcases wh with _ | e2 <;>
        rcases pr with e3 | q <;>
        simp [createProfile, hip, hc, hh, ProfileTypeCPU, ProfileTypeHeap]

/-- Witness for C1 at a concrete busy state and a concrete idle state. -/
theorem createProfile_busy_rejected_witness :
    createProfile env1 ⟨[], true, 0, 0⟩ "cpu" defaultSamplePeriod =
      (.error "already in profiling", ⟨[], true, 0, 0⟩) ∧
    (createProfile env1 st0 "cpu" defaultSamplePeriod).2.inProfiling = false :=
  ⟨(createProfile_busy_rejected env1 ⟨[], true, 0, 0⟩ "cpu" defaultSamplePeriod).1 rfl,
   (createProfile_busy_rejected env1 st0 "cpu" defaultSamplePeriod).2⟩

/-- C7: a parsed sample period above the 60s maximum is clamped to the
maximum, an absent or unparseable period falls back to the 5s default, and
any other parsed value is returned unchanged. -/
theorem getSamplePeriod_clamp :
    getSamplePerioidFromQuery .absent = defaultSamplePeriod ∧
    (∀ s, getSamplePerioidFromQuery (.unparseable s) = defaultSamplePeriod) ∧
    (∀ d, maxSamplePeriod < d →
      getSamplePerioidFromQuery (.parsed d) = maxSamplePeriod) ∧
    (∀ d, d ≤ maxSamplePeriod → getSamplePerioidFromQuery (.parsed d) = d) := by
  refine ⟨rfl, fun _ => rfl, fun d h => ?_, fun d h => ?_⟩ <;>
    simp only [getSamplePerioidFromQuery, maxSamplePeriod, second] at h ⊢ <;>
    split <;> omega

/-- Witness for C7 at concrete periods 61s, 7s and an unparseable string. -/
theorem getSamplePeriod_clamp_witness :
    getSamplePerioidFromQuery (.parsed (61 * second)) = maxSamplePeriod ∧
    getSamplePerioidFromQuery (.parsed (7 * second)) = 7 * second ∧
    getSamplePerioidFromQuery (.unparseable "zzz") = defaultSamplePeriod :=
  ⟨getSamplePeriod_clamp.2.2.1 (61 * second) (by decide),
   getSamplePeriod_clamp.2.2.2 (7 * second) (by decide),
   getSamplePeriod_clamp.2.1 "zzz"⟩

/-- C9 counterexample: the invalid type `"goroutine"` is passed through
unchanged by `getProfileTypeFromQuery`, and `createProfile` then fails with
"unknown profile type" instead of proceeding with a cpu capture; the cache
stays empty. -/
theorem invalidType_fails_cex :
    getProfileTypeFromQuery "goroutine" = "goroutine" ∧
    (createProfile env1 st0 "goroutine" defaultSamplePeriod).1 =
      .error "unknown profile type" ∧
    (createProfile env1 st0 "goroutine" defaultSamplePeriod).2.profCache = [] :=
  ⟨rfl, rfl, rfl⟩

/-- C9 amended: only an *unspecified* (empty) type defaults to cpu; a
non-empty type is passed through unchanged, and if it is neither `cpu` nor
`heap` the capture fails with "unknown profile type", leaving the handler
state unchanged. -/
theorem profileType_default_spec :
    getProfileTypeFromQuery "" = ProfileTypeCPU ∧
    (∀ pt, pt ≠ "" → getProfileTypeFromQuery pt = pt) ∧
    (∀ (env : CaptureEnv) (st : WHState) (pt : String) (period : Int),
      st.inProfiling = false → pt ≠ ProfileTypeCPU → pt ≠ ProfileTypeHeap →
      createProfile env st pt period = (.error "unknown profile type", st)) := by
  refine ⟨rfl, fun pt h => by simp [getProfileTypeFromQuery, h],
    fun env st pt period hip hc hh => ?_⟩
  rcases st with ⟨cache, flag, now, gc⟩
  cases hip
  simp [createProfile, hc, hh]

/-- Witness for the amended C9 at the concrete invalid type `"block"`. -/
theorem profileType_default_spec_witness :
    getProfileTypeFromQuery "block" = "block" ∧
    createProfile env1 st0 "block" defaultSamplePeriod =
      (.error "unknown profile type", st0) :=
  ⟨profileType_default_spec.2.1 "block" (by decide),
   profileType_default_spec.2.2 env1 st0 "block" defaultSamplePeriod rfl
     (by decide) (by decide)⟩

/-- C10: a successful heap capture takes the snapshot immediately after one
forced garbage collection — the clock does not advance by the requested
period (completion time equals start time) — yet the requested period is
still embedded in the generated profile name. -/
theorem createProfile_heap_immediate (env : CaptureEnv) (st : WHState)
    (period : Int) (p : Profile) (h1 : st.inProfiling = false)
    (h2 : env.writeHeapErr = none) (h3 : env.parsed = .ok p) :
    createProfile env st ProfileTypeHeap period =
      (.ok (profileName ProfileTypeHeap period st.now, p),
        { profCache :=
            mapInsert st.profCache (profileName ProfileTypeHeap period st.now) p
          inProfiling := false
          now := st.now
          gcRuns := st.gcRuns + 1 }) ∧
    profileName ProfileTypeHeap period st.now =
      formatTime (st.now / 1000000000) ++ "-" ++ fmtF0 period ++ "Seconds-" ++
        ProfileTypeHeap := by
  constructor
  · rcases env with ⟨sc, wh, pr⟩
    cases h2
    cases h3
    simp [createProfile, h1, ProfileTypeHeap, ProfileTypeCPU]
  · rfl

/-- Witness for C10: a concrete heap capture at time 2023-11-14T22:13:20
with a 5s requested period. -/
theorem createProfile_heap_immediate_witness :
    createProfile env1 stT0 ProfileTypeHeap (5 * second) =
      (.ok ("2023-11-14T22:13:20-5Seconds-heap", ⟨7⟩),
        ⟨[("2023-11-14T22:13:20-5Seconds-heap", ⟨7⟩)], false,
          1700000000 * 1000000000, 1⟩) := by
  have h := createProfile_heap_immediate env1 stT0 (5 * second) ⟨7⟩ rfl rfl rfl
  rw [h.1]
  rfl

/-- C8 counterexample: a concrete successful 5-second cpu capture returns a
name generated from the *start* timestamp; recomputing the name at the
completion timestamp (the clock after the capture, 5 seconds later) yields a
different string, so the claim that the name embeds the completion timestamp
is false. -/
theorem name_not_completion_time_cex :
    (createProfile env1 stT0 "cpu" (5 * second)).1 =
      .ok (profileName "cpu" (5 * second) stT0.now, ⟨7⟩) ∧
    (createProfile env1 stT0 "cpu" (5 * second)).2.now =
      stT0.now + (5 * second).toNat ∧
    profileName "cpu" (5 * second) stT0.now ≠
      profileName "cpu" (5 * second)
        ((createProfile env1 stT0 "cpu" (5 * second)).2.now) :=
  ⟨rfl, rfl, by decide⟩

/-- C8 amended: on every successful capture the generated name has the form
`<timestamp>-<duration>Seconds-<type>` where the timestamp is the capture's
*start* timestamp (the wall clock when `createProfile` begins, before the
sampling window elapses), the duration is the requested period rounded to
whole seconds, and the type is the capture type. -/
theorem createProfile_name_uses_start_time (env : CaptureEnv) (st : WHState)
    (profType : String) (period : Int) (n : String) (p : Profile)
    (stF : WHState)
    (h : createProfile env st profType period = (.ok (n, p), stF)) :
    n = profileName profType period st.now ∧
    n = formatTime (st.now / 1000000000) ++ "-" ++ fmtF0 period ++
      "Seconds-" ++ profType := by
  suffices hn : n = profileName profType period st.now from ⟨hn, hn⟩
  by_cases hip : st.inProfiling = true
  · rw [createProfile, if_pos hip] at h
    exact Except.noConfusion (congrArg Prod.fst h)
  · rcases env with ⟨sc, wh, pr⟩
    rw [createProfile, if_neg hip] at h
    by_cases hc : profType = "cpu"
    · subst hc
      rcases sc with _ | e1 <;> rcases pr with e3 | q <;>
        simp only [ProfileTypeCPU, ProfileTypeHeap, String.reduceEq,
          reduceIte, reduceCtorEq, Prod.mk.injEq, Except.ok.injEq,
          false_and, and_false] at h <;>
        exact h.1.1.symm
    · by_cases hh : profType = "heap"
      · subst hh
        rcases wh with _ | e2 <;> rcases pr with e3 | q <;>
          simp only [ProfileTypeCPU, ProfileTypeHeap, String.reduceEq,
            reduceIte, reduceCtorEq, Prod.mk.injEq, Except.ok.injEq,
            false_and, and_false] at h <;>
          exact h.1.1.symm
      · simp only [ProfileTypeCPU, ProfileTypeHeap, hc, hh, reduceIte,
          reduceCtorEq, Prod.mk.injEq, Except.ok.injEq, false_and,
          and_false, ite_false, if_false, eq_self_iff_true] at h

/-- Witness for the amended C8: the concrete capture of the counterexample
indeed carries the start timestamp 2023-11-14T22:13:20. -/
theorem createProfile_name_uses_start_time_witness :
    "2023-11-14T22:13:20-5Seconds-cpu" =
      profileName "cpu" (5 * second) stT0.now :=
  (createProfile_name_uses_start_time env1 stT0 "cpu" (5 * second)
    "2023-11-14T22:13:20-5Seconds-cpu" ⟨7⟩
    ⟨[("2023-11-14T22:13:20-5Seconds-cpu", ⟨7⟩)], false,
      1700000005 * 1000000000, 0⟩ (by rfl)).1

/-- `charListLt` is irreflexive. -/
theorem charListLt_irrefl : ∀ x : List Char, charListLt x x = false := by
  intro x
  induction x with
  | nil => rfl
  | cons a as ih =>
    simp only [charListLt]
    split_ifs with h1
    · omega
    · exact ih

/-- `charListLt` is asymmetric. -/
theorem charListLt_asymm : ∀ x y : List Char,
    charListLt x y = true → charListLt y x = false := by
  intro x
  induction x with
  | nil =>
    intro y h
    cases y with
    | nil => exact Bool.noConfusion h
    | cons b bs => rfl
  | cons a as ih =>
    intro y h
    cases y with
    | nil => exact Bool.noConfusion h
    | cons b bs =>
      simp only [charListLt] at h ⊢
      split_ifs at h ⊢ with h1 h2 <;>
        first
        | rfl
        | omega
        | exact Bool.noConfusion h
        | exact ih bs h

/-- Non-strictness (`¬ <`) of `charListLt` is transitive. -/
theorem charListLt_le_trans : ∀ x y z : List Char, charListLt x y = false →
    charListLt y z = false → charListLt x z = false := by
  intro x
  induction x with
  | nil =>
    intro y z hxy hyz
    cases y with
    | nil => exact hyz
    | cons b bs => exact Bool.noConfusion hxy
  | cons a as ih =>
    intro y z hxy hyz
    cases z with
    | nil => rfl
    | cons c cs =>
      cases y with
      | nil => exact Bool.noConfusion hyz
      | cons b bs =>
        simp only [charListLt] at hxy hyz ⊢
        split_ifs at hxy hyz ⊢ <;>
          first
          | rfl
          | exact Bool.noConfusion hxy
          | exact Bool.noConfusion hyz
          | omega
          | exact ih bs cs hxy hyz

/-- `strGe` is a total relation. -/
theorem strGe_isTotal : IsTotal String strGe := by
  constructor
  intro a b
  cases h : charListLt a.data b.data with
  | false => exact Or.inl h
  | true => exact Or.inr (charListLt_asymm _ _ h)

/-- `strGe` is transitive. -/
theorem strGe_isTrans : IsTrans String strGe :=
  ⟨fun a b c h1 h2 => charListLt_le_trans a.data b.data c.data h1 h2⟩

/-- Any key of the cache can be looked up. -/
theorem mapLookup_of_mem {m : List (String × Profile)} {k : String}
    (h : k ∈ mapKeys m) : ∃ p, mapLookup m k = some p := by
  induction m with
  | nil => simp [mapKeys] at h
  | cons hd tl ih =>
    rcases hd with ⟨k', v⟩
    by_cases hk : k' = k
    · exact ⟨v, by simp [mapLookup, hk]⟩
    · simp only [mapKeys, List.map_cons, List.mem_cons] at h
      rcases h with h | h
      · exact absurd h.symm hk
      · obtain ⟨p, hp⟩ := ih h
        exact ⟨p, by simp [mapLookup, hk, hp]⟩

/-- `latestProfile` on a non-empty cache returns a greatest key and its
profile: the head of the descending sort is a key, looks up to its profile,
and dominates every key. -/
theorem latestProfile_spec (st : WHState) (hne : st.profCache ≠ []) :
    ∃ m p, latestProfile st = (m, some p) ∧ m ∈ mapKeys st.profCache ∧
      mapLookup st.profCache m = some p ∧
      ∀ k ∈ mapKeys st.profCache, strGe m k := by
  have hperm := List.perm_insertionSort strGe (mapKeys st.profCache)
  have hsorted := @List.sorted_insertionSort String strGe _ strGe_isTotal
    strGe_isTrans (mapKeys st.profCache)
  cases hnames : profileNames st with
  | nil =>
    exfalso
    unfold profileNames at hnames
    rw [hnames] at hperm
    rcases hcc : st.profCache with _ | ⟨hd, tl⟩
    · exact hne hcc
    · have := hperm.symm.mem_iff (a := hd.1)
      rw [hcc] at this
      simp [mapKeys] at this
  | cons n rest =>
    unfold profileNames at hnames
    have hmem : n ∈ mapKeys st.profCache := by
      have := hperm.mem_iff (a := n)
      rw [hnames] at this
      exact this.mp (List.mem_cons_self n rest)
    obtain ⟨p, hp⟩ := mapLookup_of_mem hmem
    refine ⟨n, p, ?_, hmem, hp, ?_⟩
    · unfold latestProfile profileNames
      rw [hnames]
      simp only [hp]
    · intro k hk
      have hk' : k ∈ n :: rest := by
        have := hperm.mem_iff (a := k)
        rw [hnames] at this
        exact this.mpr hk
      rw [hnames] at hsorted
      rcases List.mem_cons.mp hk' with rfl | hkr
      · exact charListLt_irrefl k.data
      · exact (List.sorted_cons.mp hsorted).1 k hkr

/-- C6: for a non-empty cache `latestProfile` returns the lexicographically
greatest cached name together with its profile; for the empty cache it
returns the empty-state signal `("", none)`. -/
theorem latestProfile_mostRecent (st : WHState) :
    (st.profCache = [] → latestProfile st = ("", none)) ∧
    (st.profCache ≠ [] →
      ∃ m p, latestProfile st = (m, some p) ∧ m ∈ mapKeys st.profCache ∧
        mapLookup st.profCache m = some p ∧
        ∀ k ∈ mapKeys st.profCache, strGe m k) :=
  ⟨fun h => by simp [latestProfile, profileNames, h, mapKeys],
   latestProfile_spec st⟩

/-- Witness for C6: after inserting names `A < B < C` the most recent
profile is `C`. -/
theorem latestProfile_mostRecent_witness :
    latestProfile stABC = ("C", some ⟨3⟩) := by
  obtain ⟨m, p, h1, h2, h3, h4⟩ :=
    (latestProfile_mostRecent stABC).2 (by simp [stABC])
  have hC : strGe m "C" := h4 "C" (by decide)
  have hmem : m = "A" ∨ m = "B" ∨ m = "C" := by
    simpa [stABC, mapKeys] using h2
  have hm : m = "C" := by
    rcases hmem with rfl | rfl | rfl
    · exact absurd hC (by decide)
    · exact absurd hC (by decide)
    · rfl
  subst hm
  rcases p with ⟨pt⟩
  simp only [stABC, mapLookup, String.reduceEq, reduceIte,
    Option.some.injEq, Profile.mk.injEq] at h3
  subst h3
  rw [h1]

/-- C5: the resolution policy of `tryGetProfile`: a named profile that
exists in the cache is used as-is; otherwise, if the cache is non-empty, the
most recent (lexicographically greatest) cached profile is used; otherwise a
new default capture (cpu type, default 5s period) is run synchronously and
its result is returned. -/
theorem tryGetProfile_policy (env : CaptureEnv) (st : WHState)
    (profname : String) :
    (∀ p, mapLookup st.profCache profname = some p →
      tryGetProfile env st profname = (.ok (profname, p), st)) ∧
    (mapLookup st.profCache profname = none → st.profCache ≠ [] →
      ∃ m p, tryGetProfile env st profname = (.ok (m, p), st) ∧
        m ∈ mapKeys st.profCache ∧ mapLookup st.profCache m = some p ∧
        ∀ k ∈ mapKeys st.profCache, strGe m k) ∧
    (st.profCache = [] →
      tryGetProfile env st profname =
        createProfile env st ProfileTypeCPU defaultSamplePeriod) := by
  refine ⟨fun p hp => ?_, fun hn hne => ?_, fun he => ?_⟩
  · simp [tryGetProfile, getProfile, hp]
  · obtain ⟨m, p, h1, h2, h3, h4⟩ := latestProfile_spec st hne
    exact ⟨m, p, by simp [tryGetProfile, getProfile, hn, h1], h2, h3, h4⟩
  · simp [tryGetProfile, getProfile, he, mapLookup, latestProfile,
      profileNames, mapKeys]

/-- Witness for C5: a pinned existing name is served from the cache, a
missing name falls back to the most recent entry `C`, and an empty cache
triggers the synchronous default capture. -/
theorem tryGetProfile_policy_witness :
    tryGetProfile env1 stABC "B" = (.ok ("B", ⟨2⟩), stABC) ∧
    tryGetProfile env1 stABC "nope" = (.ok ("C", ⟨3⟩), stABC) ∧
    tryGetProfile env1 st0 "" =
      createProfile env1 st0 ProfileTypeCPU defaultSamplePeriod := by
  refine ⟨(tryGetProfile_policy env1 stABC "B").1 ⟨2⟩ (by decide), ?_,
    (tryGetProfile_policy env1 st0 "").2.2 rfl⟩
  obtain ⟨m, p, h1, h2, h3, h4⟩ :=
    (tryGetProfile_policy env1 stABC "nope").2.1 (by decide) (by simp [stABC])
  rfl

/-- Setting the element just past a list writes into the appended
singleton. -/
theorem set_append_at_length (A : List Nat) (x y : Nat) :
    (A ++ [x]).set A.length y = A ++ [y] := by
  induction A with
  | nil => rfl
  | cons a as ih => simp [List.set_cons_succ, ih]

/-- Effect of the swap-to-front step of the first `flamegraph` pass: on
`arr ++ [x]` with `i ≤ arr.length`, swapping positions `i` and the last
makes the first `i + 1` elements `arr.take i ++ [x]` and leaves the rest a
permutation of `arr.drop i`. -/
theorem listSwap_spec : ∀ (A : List Nat) (i : Nat) (x : Nat), i ≤ A.length →
    (listSwap (A ++ [x]) i A.length).take (i + 1) = A.take i ++ [x] ∧
    ((listSwap (A ++ [x]) i A.length).drop (i + 1)).Perm (A.drop i) ∧
    (listSwap (A ++ [x]) i A.length).length = A.length + 1 := by
  intro A
  induction A with
  | nil =>
    intro i x h
    have hi : i = 0 := Nat.le_zero.mp h
    subst hi
    exact ⟨rfl, List.Perm.refl _, rfl⟩
  | cons a A' ih =>
    intro i x h
    cases i with
    | zero =>
      have h2 : (a :: (A' ++ [x]))[A'.length + 1]? = some x := by
        rw [List.getElem?_cons_succ, List.getElem?_append]
        simp
      have hval : listSwap ((a :: A') ++ [x]) 0 ((a :: A').length) =
          x :: (A' ++ [a]) := by
        simp only [List.cons_append, List.length_cons]
        rw [listSwap]
        rw [List.getElem?_cons_zero, h2]
        simp only [List.set_cons_succ]
        rw [show (a :: (A' ++ [x])).set 0 x = x :: (A' ++ [x]) from rfl]
        rw [List.set_cons_succ, set_append_at_length]
      rw [hval]
      refine ⟨rfl, ?_, by simp⟩
      simpa using List.perm_append_singleton a A'
    | succ j =>
      have hj : j ≤ A'.length := Nat.succ_le_succ_iff.mp (by simpa using h)
      obtain ⟨ihtake, ihdrop, ihlen⟩ := ih j x hj
      have hcons : listSwap ((a :: A') ++ [x]) (j + 1) ((a :: A').length) =
          a :: listSwap (A' ++ [x]) j A'.length := by
        simp only [List.cons_append, List.length_cons]
        rw [listSwap, listSwap]
        rw [List.getElem?_cons_succ, List.getElem?_cons_succ]
        cases h1 : (A' ++ [x])[j]? with
        | none => cases h2 : (A' ++ [x])[A'.length]? <;> rfl
        | some b =>
          cases h2 : (A' ++ [x])[A'.length]? with
          | none => rfl
          | some c => simp [List.set_cons_succ]
      rw [hcons]
      refine ⟨?_, ?_, ?_⟩
      · rw [List.take_succ_cons, ihtake]
        simp
      · rw [show (a :: listSwap (A' ++ [x]) j A'.length).drop (j + 1 + 1) =
          (listSwap (A' ++ [x]) j A'.length).drop (j + 1) from rfl]
        simpa using ihdrop
      · simp [ihlen]

/-- Invariant of the first `flamegraph` pass: folding `pass1Step` over a
node list appends every node once, compacts exactly the zero-in-degree
nodes to the front (as a permutation), and accumulates their cumulative
values into `rootValue`. -/
theorem pass1_foldl_spec (g : CallGraph) :
    ∀ (l : List GNode) (s : Pass1State), s.nroots ≤ s.arr.length →
      ((l.foldl (pass1Step g) s).nroots = s.nroots + (rootIds g l).length ∧
        (l.foldl (pass1Step g) s).arr.length = s.arr.length + l.length) ∧
      ((l.foldl (pass1Step g) s).arr.take
          (l.foldl (pass1Step g) s).nroots).Perm
        (s.arr.take s.nroots ++ rootIds g l) ∧
      ((l.foldl (pass1Step g) s).arr.drop
          (l.foldl (pass1Step g) s).nroots).Perm
        (s.arr.drop s.nroots ++ nonrootIds g l) ∧
      (l.foldl (pass1Step g) s).rootValue = s.rootValue +
        ((l.filter (fun n => decide ((inEdges g n.id).length = 0))).map
          GNode.cum).sum := by
  intro l
  induction l with
  | nil =>
    intro s hs
    simp [rootIds, nonrootIds]
  | cons n rest ih =>
    intro s hs
    simp only [List.foldl_cons]
    by_cases hroot : (inEdges g n.id).length = 0
    · have hroot' : inEdges g n.id = [] := List.length_eq_zero.mp hroot
      have hstep : pass1Step g s n =
          ⟨listSwap (s.arr ++ [n.id]) s.nroots s.arr.length,
            s.nroots + 1, s.rootValue + n.cum⟩ := by
        simp [pass1Step, hroot]
      obtain ⟨htake, hdrop, hlen⟩ := listSwap_spec s.arr s.nroots n.id hs
      rw [hstep]
      obtain ⟨⟨ihn, ihl⟩, ihtake, ihdrop, ihval⟩ :=
        ih ⟨listSwap (s.arr ++ [n.id]) s.nroots s.arr.length,
          s.nroots + 1, s.rootValue + n.cum⟩
          (show s.nroots + 1 ≤
              (listSwap (s.arr ++ [n.id]) s.nroots s.arr.length).length from by
            rw [hlen]; omega)
      have hri : rootIds g (n :: rest) = n.id :: rootIds g rest := by
        simp [rootIds, List.filter_cons, hroot']
      have hnri : nonrootIds g (n :: rest) = nonrootIds g rest := by
        simp [nonrootIds, List.filter_cons, hroot']
      refine ⟨⟨?_, ?_⟩, ?_, ?_, ?_⟩
      · rw [ihn, hri]
        simp
        omega
      · rw [ihl, hlen]
        simp
        omega
      · rw [hri]
        refine ihtake.trans ?_
        rw [htake, List.append_assoc]
        simp
      · rw [hnri]
        refine ihdrop.trans ?_
        exact hdrop.append_right _
      · rw [ihval]
        simp [List.filter_cons, hroot']
        omega
    · have hroot' : ¬ inEdges g n.id = [] := fun hh => hroot (by rw [hh]; rfl)
      have hstep : pass1Step g s n = { s with arr := s.arr ++ [n.id] } := by
        simp [pass1Step, hroot]
      rw [hstep]
      obtain ⟨⟨ihn, ihl⟩, ihtake, ihdrop, ihval⟩ :=
        ih { s with arr := s.arr ++ [n.id] }
          (show s.nroots ≤ (s.arr ++ [n.id]).length from by simp; omega)
      have hri : rootIds g (n :: rest) = rootIds g rest := by
        simp [rootIds, List.filter_cons, hroot']
      have hnri : nonrootIds g (n :: rest) = n.id :: nonrootIds g rest := by
        simp [nonrootIds, List.filter_cons, hroot']
      have htk : (s.arr ++ [n.id]).take s.nroots = s.arr.take s.nroots :=
        List.take_append_of_le_length hs
      have hdp : (s.arr ++ [n.id]).drop s.nroots =
          s.arr.drop s.nroots ++ [n.id] :=
        List.drop_append_of_le_length hs
      refine ⟨⟨?_, ?_⟩, ?_, ?_, ?_⟩
      · rw [ihn, hri]
      · rw [ihl]
        simp
        omega
      · rw [hri]
        refine ihtake.trans ?_
        rw [htk]
      · rw [hnri]
        refine ihdrop.trans ?_
        rw [hdp, List.append_assoc]
        simp
      · rw [ihval]
        simp [List.filter_cons, hroot']

/-- The first pass on a whole graph: `nroots` counts the zero-in-degree
nodes, the front of the array is a permutation of them, the back a
permutation of the rest, and `rootValue` is the sum of their cumulative
values. -/
theorem pass1_spec (g : CallGraph) :
    (pass1 g).nroots = (rootIds g g.nodes).length ∧
    ((pass1 g).arr.take (pass1 g).nroots).Perm (rootIds g g.nodes) ∧
    ((pass1 g).arr.drop (pass1 g).nroots).Perm (nonrootIds g g.nodes) ∧
    (pass1 g).rootValue =
      ((g.nodes.filter (fun n => decide ((inEdges g n.id).length = 0))).map
        GNode.cum).sum := by
  obtain ⟨⟨h1, h2⟩, h3, h4, h5⟩ :=
    pass1_foldl_spec g g.nodes ⟨[], 0, 0⟩ (Nat.le_refl 0)
  exact ⟨by simpa [pass1] using h1, by simpa [pass1] using h3,
    by simpa [pass1] using h4, by simpa [pass1] using h5⟩

/-- The working array of the first pass is a permutation of the graph's
node identities. -/
theorem pass1_arr_perm (g : CallGraph) :
    (pass1 g).arr.Perm (g.nodes.map GNode.id) := by
  obtain ⟨h1, h2, h3, h4⟩ := pass1_spec g
  have heq : (pass1 g).arr =
      (pass1 g).arr.take (pass1 g).nroots ++
        (pass1 g).arr.drop (pass1 g).nroots :=
    (List.take_append_drop _ _).symm
  rw [heq]
  refine (h2.append h3).trans ?_
  unfold rootIds nonrootIds
  rw [← List.map_append]
  exact (List.filter_append_perm _ g.nodes).map GNode.id

/-- A node with a positive in-degree has an incoming edge. -/
theorem exists_inEdge (g : CallGraph) (v : Nat)
    (h : ¬ (inEdges g v).length = 0) : ∃ e ∈ g.edges, e.2 = v := by
  rcases hne : inEdges g v with _ | ⟨e, es⟩
  · rw [hne] at h
    simp at h
  · have hmem : e ∈ inEdges g v := by
      rw [hne]
      exact List.mem_cons_self e es
    have h2 := List.mem_filter.mp hmem
    exact ⟨e, h2.1, by simpa using h2.2⟩

/-- The ancestor set of any vertex is finite (every strict ancestor is the
source of some edge). -/
theorem ancestorSet_finite (g : CallGraph) (v : Nat) :
    (ancestorSet g v).Finite := by
  apply Set.Finite.subset (List.finite_toSet (g.edges.map Prod.fst))
  intro w hw
  obtain ⟨b, hb, -⟩ := Relation.TransGen.head'_iff.mp hw
  simp only [Set.mem_setOf_eq, List.mem_map]
  exact ⟨(w, b), hb, rfl⟩

/-- In a well-formed acyclic graph every node has a zero-in-degree ancestor
(strong induction on the number of strict ancestors). -/
theorem exists_root_ancestor (g : CallGraph) (hwf : WellFormed g)
    (hac : Acyclic g) :
    ∀ (N : Nat) (v : Nat), v ∈ g.nodes.map GNode.id →
      (ancestorSet g v).ncard ≤ N →
      ∃ r, r ∈ g.nodes.map GNode.id ∧ (inEdges g r).length = 0 ∧
        Relation.ReflTransGen (EdgeStep g) r v := by
  intro N
  induction N with
  | zero =>
    intro v hv hle
    by_cases h0 : (inEdges g v).length = 0
    · exact ⟨v, hv, h0, Relation.ReflTransGen.refl⟩
    · exfalso
      obtain ⟨e, he, hev⟩ := exists_inEdge g v h0
      have hstep : EdgeStep g e.1 v := by
        unfold EdgeStep
        rw [← hev]
        simpa using he
      have hmem : e.1 ∈ ancestorSet g v := Relation.TransGen.single hstep
      have hempty : ancestorSet g v = ∅ :=
        (Set.ncard_eq_zero (ancestorSet_finite g v)).mp (Nat.le_zero.mp hle)
      rw [hempty] at hmem
      exact hmem
  | succ N ih =>
    intro v hv hle
    by_cases h0 : (inEdges g v).length = 0
    · exact ⟨v, hv, h0, Relation.ReflTransGen.refl⟩
    · obtain ⟨e, he, hev⟩ := exists_inEdge g v h0
      have hstep : EdgeStep g e.1 v := by
        unfold EdgeStep
        rw [← hev]
        simpa using he
      have hu : e.1 ∈ g.nodes.map GNode.id := (hwf.2 e he).1
      have hsub : ancestorSet g e.1 ⊆ ancestorSet g v :=
        fun w hw => Relation.TransGen.tail hw hstep
      have hin : e.1 ∈ ancestorSet g v := Relation.TransGen.single hstep
      have hss : ancestorSet g e.1 ⊂ ancestorSet g v :=
        ⟨hsub, fun hsup => hac e.1 (hsup hin)⟩
      have hlt := Set.ncard_lt_ncard hss (ancestorSet_finite g v)
      obtain ⟨r, hr, hr0, hrr⟩ := ih e.1 hu (by omega)
      exact ⟨r, hr, hr0, hrr.tail hstep⟩

/-- C3 counterexample: in the two-node cyclic graph `1 → 2 → 1` no node has
zero in-degree, so the synthetic root has no children and node `1` — though
present in the graph — is not reachable from the root, refuting the claim
for arbitrary input call graphs. -/
theorem flameRoot_unreachable_cex :
    (⟨1, 5⟩ : GNode) ∈ gCyc.nodes ∧
    ¬ ∃ r ∈ (flameRoot gCyc).2,
        Relation.ReflTransGen (EdgeStep gCyc) r 1 := by
  refine ⟨by decide, ?_⟩
  rintro ⟨r, hr, -⟩
  have h2 : (flameRoot gCyc).2 = [] := by decide
  rw [h2] at hr
  exact absurd hr (List.not_mem_nil r)

/-- C3 amended: for every *acyclic* well-formed call graph (the shape the
handler guarantees by forcing the call-tree option), the synthetic root's
cumulative value is the sum of the cumulative values of the zero-in-degree
nodes, and every graph node appears as a flame node and is reachable from
the synthetic root. -/
theorem flameRoot_spec (g : CallGraph) (hwf : WellFormed g)
    (hac : Acyclic g) :
    (flameRoot g).1 =
      ((g.nodes.filter (fun n => decide ((inEdges g n.id).length = 0))).map
        GNode.cum).sum ∧
    ∀ n ∈ g.nodes, buildTreeNode g n ∈ flameNodes g ∧
      ∃ r ∈ (flameRoot g).2,
        Relation.ReflTransGen (EdgeStep g) r n.id := by
  obtain ⟨h1, h2, h3, h4⟩ := pass1_spec g
  constructor
  · exact h4
  · intro n hn
    refine ⟨List.mem_map_of_mem _ hn, ?_⟩
    obtain ⟨r, hr, hr0, hreach⟩ := exists_root_ancestor g hwf hac
      ((ancestorSet g n.id).ncard) n.id (List.mem_map_of_mem _ hn)
      (Nat.le_refl _)
    refine ⟨r, ?_, hreach⟩
    have hmem : r ∈ rootIds g g.nodes := by
      obtain ⟨m, hm, hmid⟩ := List.mem_map.mp hr
      refine List.mem_map.mpr ⟨m, List.mem_filter.mpr ⟨hm, ?_⟩, hmid⟩
      simp [hmid, hr0]
    exact h2.mem_iff.mpr hmem

/-- The only edge of the chain graph `1 → 2`. -/
theorem gChain_step (a b : Nat) (h : EdgeStep gChain a b) : a = 1 ∧ b = 2 := by
  simpa [EdgeStep, gChain] using h

/-- Every path of the chain graph `1 → 2` goes from `1` to `2`. -/
theorem gChain_transGen (a b : Nat)
    (h : Relation.TransGen (EdgeStep gChain) a b) : a = 1 ∧ b = 2 := by
  induction h with
  | single h => exact gChain_step _ _ h
  | tail _ hbc ih => exact ⟨ih.1, (gChain_step _ _ hbc).2⟩

/-- The chain graph `1 → 2` is acyclic. -/
theorem gChain_acyclic : Acyclic gChain := by
  intro v hv
  have h := gChain_transGen v v hv
  omega

/-- Witness for the amended C3 on the concrete acyclic graph `1 → 2`: the
root value is node 1's cumulative value and node 2 is reachable from the
synthetic root. -/
theorem flameRoot_spec_witness :
    (flameRoot gChain).1 = 5 ∧
    ∃ r ∈ (flameRoot gChain).2,
      Relation.ReflTransGen (EdgeStep gChain) r 2 := by
  have h := flameRoot_spec gChain ⟨by decide, by decide⟩ gChain_acyclic
  exact ⟨h.1.trans (by decide), (h.2 ⟨2, 7⟩ (by decide)).2⟩

/-- Sums of pointwise sums of naturals split. -/
theorem sum_map_add_nat {α : Type} (l : List α) (f k : α → Nat) :
    (l.map (fun x => f x + k x)).sum = (l.map f).sum + (l.map k).sum := by
  induction l with
  | nil => rfl
  | cons a l ih =>
    simp only [List.map_cons, List.sum_cons, ih]
    omega

/-- An indicator sum over nodes vanishes when the probed id is absent. -/
theorem sum_map_ite_zero (u : Nat) (c : Nat) :
    ∀ nodes : List GNode, u ∉ nodes.map GNode.id →
      (nodes.map (fun n => if u = n.id then c else 0)).sum = 0 := by
  intro nodes
  induction nodes with
  | nil => intro _; rfl
  | cons m rest ih =>
    intro h
    simp only [List.map_cons, List.mem_cons, not_or] at h
    simp only [List.map_cons, List.sum_cons, if_neg h.1, ih h.2]

/-- An indicator sum over nodes with distinct ids picks the value once. -/
theorem sum_map_ite_one (u : Nat) (c : Nat) :
    ∀ nodes : List GNode, (nodes.map GNode.id).Nodup →
      u ∈ nodes.map GNode.id →
      (nodes.map (fun n => if u = n.id then c else 0)).sum = c := by
  intro nodes
  induction nodes with
  | nil =>
    intro _ h
    simp at h
  | cons m rest ih =>
    intro hnd hmem
    rw [List.map_cons] at hnd hmem
    have hnd' := List.nodup_cons.mp hnd
    simp only [List.map_cons, List.sum_cons]
    by_cases he : u = m.id
    · rw [if_pos he, sum_map_ite_zero u c rest (by rw [he]; exact hnd'.1)]
      omega
    · rw [if_neg he]
      rcases List.mem_cons.mp hmem with h | h
      · exact absurd h he
      · rw [ih hnd'.2 h]
        omega

/-- Summed over all nodes of a graph with distinct ids, the number of child
links pointing at `v` equals the number of edges into `v`. -/
theorem childOccs_eq_inDeg (v : Nat) (nodes : List GNode)
    (hnd : (nodes.map GNode.id).Nodup) :
    ∀ E : List (Nat × Nat), (∀ e ∈ E, e.1 ∈ nodes.map GNode.id) →
      (nodes.map (fun n =>
        ((E.filter (fun e => decide (e.1 = n.id))).map Prod.snd).count v)).sum
        = (E.filter (fun e => decide (e.2 = v))).length := by
  intro E
  induction E with
  | nil =>
    intro _
    simp
  | cons e E ih =>
    intro hE
    have he1 : e.1 ∈ nodes.map GNode.id := hE e (List.mem_cons_self e E)
    have hE' : ∀ e' ∈ E, e'.1 ∈ nodes.map GNode.id :=
      fun e' h => hE e' (List.mem_cons_of_mem e h)
    have hsplit : ∀ n : GNode,
        (((e :: E).filter (fun e' => decide (e'.1 = n.id))).map
          Prod.snd).count v =
        (if e.1 = n.id then (if e.2 = v then 1 else 0) else 0) +
          ((E.filter (fun e' => decide (e'.1 = n.id))).map
            Prod.snd).count v := by
      intro n
      rw [List.filter_cons]
      by_cases h1 : e.1 = n.id
      · by_cases h2 : e.2 = v <;>
          simp [h1, h2, List.count_cons] <;> omega
      · simp [h1]
    rw [List.map_congr_left (fun n _ => hsplit n), sum_map_add_nat,
      sum_map_ite_one e.1 _ nodes hnd he1, ih hE', List.filter_cons]
    by_cases h2 : e.2 = v <;> simp [h2] <;> omega

/-- C4 counterexample: in the graph where node `3` has the two callers `1`
and `2`, the single flame node of `3` is linked as a child of both parents
(sharing), and `3` occurs twice in the unfolded flame tree — not exactly
once as the claim states. -/
theorem flameTree_shared_node_cex :
    (buildTreeNode gDiamond ⟨1, 5⟩).children = [3] ∧
    (buildTreeNode gDiamond ⟨2, 7⟩).children = [3] ∧
    (flameTreeOccs gDiamond 3).count 3 = 2 ∧
    (flameTreeOccs gDiamond 10).count 3 = 2 := by
  refine ⟨by decide, by decide, by decide, by decide⟩

/-- C4 amended: in a well-formed graph every node is materialised as
exactly one entry of the flame node array; it is linked below the synthetic
root exactly once if it has zero in-degree (and never otherwise), and it is
linked as a child of other flame nodes exactly once per incoming edge — so
a non-root node appears exactly once in the unfolded tree only when it has
exactly one caller, while a multi-caller node's single flame node is shared
among all its callers. -/
theorem flameTree_link_counts (g : CallGraph) (hwf : WellFormed g) (v : Nat)
    (hv : v ∈ g.nodes.map GNode.id) :
    (pass1 g).arr.count v = 1 ∧
    ((flameRoot g).2.count v =
      if (inEdges g v).length = 0 then 1 else 0) ∧
    ((flameNodes g).map (fun t => t.children.count v)).sum =
      (inEdges g v).length := by
  obtain ⟨h1, h2, h3, h4⟩ := pass1_spec g
  refine ⟨?_, ?_, ?_⟩
  · rw [(pass1_arr_perm g).count_eq]
    exact List.count_eq_one_of_mem hwf.1 hv
  · have hc : (flameRoot g).2 = (pass1 g).arr.take (pass1 g).nroots := rfl
    rw [hc, h2.count_eq]
    by_cases h0 : (inEdges g v).length = 0
    · rw [if_pos h0]
      have hnd : (rootIds g g.nodes).Nodup :=
        ((List.filter_sublist g.nodes).map GNode.id).nodup hwf.1
      have hmem : v ∈ rootIds g g.nodes := by
        obtain ⟨m, hm, hmid⟩ := List.mem_map.mp hv
        exact List.mem_map.mpr
          ⟨m, List.mem_filter.mpr ⟨hm, by simp [hmid, h0]⟩, hmid⟩
      exact List.count_eq_one_of_mem hnd hmem
    · rw [if_neg h0]
      refine List.count_eq_zero.mpr ?_
      intro hmem
      obtain ⟨m, hm, hmid⟩ := List.mem_map.mp hmem
      have := (List.mem_filter.mp hm).2
      rw [hmid] at this
      exact h0 (by simpa using this)
  · have hrw : (flameNodes g).map (fun t => t.children.count v) =
        g.nodes.map (fun n =>
          ((g.edges.filter (fun e => decide (e.1 = n.id))).map
            Prod.snd).count v) := by
      simp [flameNodes, buildTreeNode, outNeighbors, List.map_map,
        Function.comp]
    rw [hrw]
    exact childOccs_eq_inDeg v g.nodes hwf.1 g.edges
      (fun e he => (hwf.2 e he).1)

/-- Witness for the amended C4 on the two-caller graph: node `3` is listed
once in the node array, is not a root child, and carries two child links —
one per caller. -/
theorem flameTree_link_counts_witness :
    (pass1 gDiamond).arr.count 3 = 1 ∧
    (flameRoot gDiamond).2.count 3 = 0 ∧
    ((flameNodes gDiamond).map (fun t => t.children.count 3)).sum = 2 := by
  have h := flameTree_link_counts gDiamond ⟨by decide, by decide⟩ 3 (by decide)
  exact ⟨h.1, h.2.1.trans (by decide), h.2.2.trans (by decide)⟩

/-- C2 counterexample: an interleaving of two concurrent `createProfile`
calls in which both threads pass the in-progress check (which is under the
lock) before either sets the flag (which happens only after the lock is
released), so both reach the capturing section simultaneously — the
Idle→Capturing transition is not an atomic check-and-set, and more than one
capture can execute at an instant. -/
theorem c2_both_capturing_reachable :
    ∃ s : Sys, Reachable s ∧ s.pc0 = PC.capturing ∧ s.pc1 = PC.capturing := by
  refine ⟨⟨.capturing, .capturing, none, true⟩, ?_, rfl, rfl⟩
  have h1 : Step initSys ⟨.check, .start, some 0, false⟩ :=
    Step.acquire initSys 0 rfl rfl
  have h2 : Step ⟨.check, .start, some 0, false⟩
      ⟨.relOk, .start, some 0, false⟩ :=
    Step.checkFree _ 0 rfl rfl rfl
  have h3 : Step ⟨.relOk, .start, some 0, false⟩
      ⟨.setFlag, .start, none, false⟩ :=
    Step.releaseOk _ 0 rfl rfl
  have h4 : Step ⟨.setFlag, .start, none, false⟩
      ⟨.setFlag, .check, some 1, false⟩ :=
    Step.acquire _ 1 rfl rfl
  have h5 : Step ⟨.setFlag, .check, some 1, false⟩
      ⟨.setFlag, .relOk, some 1, false⟩ :=
    Step.checkFree _ 1 rfl rfl rfl
  have h6 : Step ⟨.setFlag, .relOk, some 1, false⟩
      ⟨.setFlag, .setFlag, none, false⟩ :=
    Step.releaseOk _ 1 rfl rfl
  have h7 : Step ⟨.setFlag, .setFlag, none, false⟩
      ⟨.capturing, .setFlag, none, true⟩ :=
    Step.doSet _ 0 rfl
  have h8 : Step ⟨.capturing, .setFlag, none, true⟩
      ⟨.capturing, .capturing, none, true⟩ :=
    Step.doSet _ 1 rfl
  exact .head h1 (.head h2 (.head h3 (.head h4 (.head h5 (.head h6
    (.head h7 (.single h8)))))))

/-- In every reachable state, a thread whose program counter lies in the
locked section holds the mutex. -/
theorem lock_region_invariant (s : Sys) (h : Reachable s) :
    (inLockRegion s.pc0 = true → s.lockHeld = some 0) ∧
    (inLockRegion s.pc1 = true → s.lockHeld = some 1) := by
  induction h with
  | refl => exact ⟨fun h => Bool.noConfusion h, fun h => Bool.noConfusion h⟩
  | tail _ hstep ih =>
    cases hstep with
    | acquire t hpc hl =>
      fin_cases t <;> simp_all [Sys.setPc, Sys.pc, inLockRegion]
    | checkBusy t hpc hl hf =>
      fin_cases t <;> simp_all [Sys.setPc, Sys.pc, inLockRegion]
    | checkFree t hpc hl hf =>
      fin_cases t <;> simp_all [Sys.setPc, Sys.pc, inLockRegion]
    | releaseFail t hpc hl =>
      fin_cases t <;> simp_all [Sys.setPc, Sys.pc, inLockRegion]
    | releaseOk t hpc hl =>
      fin_cases t <;> simp_all [Sys.setPc, Sys.pc, inLockRegion]
    | doSet t hpc =>
      fin_cases t <;> simp_all [Sys.setPc, Sys.pc, inLockRegion]
    | finish t hpc =>
      fin_cases t <;> simp_all [Sys.setPc, Sys.pc, inLockRegion]

/-- C2 amended: the in-progress check itself is performed while holding the
cache lock, so two capture attempts can never be evaluating the check at
the same instant; however the flag is set only after the lock is released,
so the check and the set can be interleaved by the other attempt (see the
counterexample) — mutual exclusion of whole captures is not guaranteed. -/
theorem c2_check_under_lock (s : Sys) (h : Reachable s) :
    ¬ (s.pc0 = PC.check ∧ s.pc1 = PC.check) := by
  rintro ⟨h0, h1⟩
  obtain ⟨i0, i1⟩ := lock_region_invariant s h
  have e0 : s.lockHeld = some 0 := i0 (by rw [h0]; rfl)
  have e1 : s.lockHeld = some 1 := i1 (by rw [h1]; rfl)
  rw [e0] at e1
  exact absurd (Option.some.inj e1) (by decide)

/-- Witness for the amended C2 at the initial state. -/
theorem c2_check_under_lock_witness :
    ¬ (initSys.pc0 = PC.check ∧ initSys.pc1 = PC.check) :=
  c2_check_under_lock initSys Relation.ReflTransGen.refl

end Pprof
